import Mathlib

/-!
Shallow embedding of the hadar negotiation core (`src/dispatcher/broker.py`,
`src/hadar/solver/actor.py`): the exchange ledger, the broker message handlers
and the outgoing-message construction rules, together with theorems checking
the natural-language specification against this code.

Python integers are modelled as `Int` (quantities, costs), uuids as `Nat`
(the injectable `uuid_generate` source is modelled as a counter threaded
through the functions that mint ids), node names as `String`.  Python dicts
are modelled as insertion-ordered association lists with first-match lookup,
which is observationally the dict behaviour on unique keys.  Fallible Python
code (raising `ValueError`, `KeyError`, `IndexError`) is modelled with
`Except String`.
-/

namespace Hadar

/-- `Exchange` from `dispatcher/domain.py` as described by the spec (§3):
a committed unit-of-transfer record. -/
structure Exchange where
  id : Nat
  production_id : Nat
  quantity : Int
  path_node : List String
deriving DecidableEq, Repr

/-- `Production`: a supply offer.  `type` is one of `local`, `import`,
`exchange`; constructor calls in `broker.py` that omit `type`/`exchange`
use the defaults. -/
structure Production where
  id : Nat
  cost : Int
  quantity : Int
  type : String := "local"
  exchange : Option Exchange := none
deriving DecidableEq, Repr

/-- `Consumption`: an inelastic demand with a shedding penalty. -/
structure Consumption where
  name : String
  cost : Int
  quantity : Int
deriving DecidableEq, Repr

/-- `Border`: a directed link to the neighbor node named `dest`. -/
structure Border where
  dest : String
  cost : Int
  quantity : Int
deriving DecidableEq, Repr

/-- `Proposal` message. -/
structure Proposal where
  production_id : Nat
  cost : Int
  quantity : Int
  path_node : List String
deriving DecidableEq, Repr

/-- `ProposalOffer` message. -/
structure ProposalOffer where
  production_id : Nat
  cost : Int
  quantity : Int
  path_node : List String
  return_path_node : List String
deriving DecidableEq, Repr

/-- `ConsumerCanceledExchange` message. -/
structure ConsumerCanceledExchange where
  exchanges : List Exchange
  path_node : List String
deriving DecidableEq, Repr

/-- `NodeState`: result of a local `optimize_adequacy` solve. -/
structure NodeState where
  cost : Int
  productions_used : List Production
  productions_free : List Production
deriving DecidableEq, Repr

/-! ## LedgerExchange

`LedgerExchange.ledger` is the Python dict
`production_id -> { exchange_id -> Exchange }`, modelled as an
insertion-ordered association list.  The recursive helpers implement the
dict operations with first-match semantics. -/

/-- One inner dict `exchange_id -> Exchange`. -/
abbrev Inner := List (Nat × Exchange)

/-- Python `inner[k]` lookup returning `none` when absent. -/
def findInner (inner : Inner) (k : Nat) : Option Exchange :=
  match inner with
  | [] => none
  | (i, e) :: rest => if i = k then some e else findInner rest k

/-- Python `ex.id in inner.keys()`. -/
def innerHasKey (inner : Inner) (k : Nat) : Bool :=
  (findInner inner k).isSome

/-- Python `del inner[k]` once `k in inner` is known: remove the (first)
binding of `k`. -/
def eraseInner (inner : Inner) (k : Nat) : Inner :=
  match inner with
  | [] => []
  | (i, e) :: rest => if i = k then rest else (i, e) :: eraseInner rest k

/-- Sum of the quantities stored in one inner dict
(`sum([ex.quantity for ex in inner.values()])`). -/
def sumInner (inner : Inner) : Int :=
  (inner.map (fun e => e.2.quantity)).sum

/-- The outer dict's underlying list. -/
abbrev LedgerList := List (Nat × Inner)

/-- `LedgerExchange.add` (`broker.py:18-24`): ensure the production key
exists, fail with `ValueError` if the exchange id is already stored under
it, otherwise record the exchange. -/
def addLedger (L : LedgerList) (ex : Exchange) : Except String LedgerList :=
  match L with
  | [] => .ok [(ex.production_id, [(ex.id, ex)])]
  | (pid, inner) :: rest =>
    if pid = ex.production_id then
      if innerHasKey inner ex.id then .error "Exchange already stored in ledger"
      else .ok ((pid, inner ++ [(ex.id, ex)]) :: rest)
    else (addLedger rest ex).map (fun r => (pid, inner) :: r)

/-- `LedgerExchange.delete` (`broker.py:26-28`): an absent production key is
silently skipped; when the production key is present, Python executes
`del self.ledger[ex.production_id][ex.id]`, which raises `KeyError` when
the exchange id is absent from the inner dict. -/
def deleteLedger (L : LedgerList) (ex : Exchange) : Except String LedgerList :=
  match L with
  | [] => .ok []
  | (pid, inner) :: rest =>
    if pid = ex.production_id then
      if innerHasKey inner ex.id then .ok ((pid, eraseInner inner ex.id) :: rest)
      else .error "KeyError"
    else (deleteLedger rest ex).map (fun r => (pid, inner) :: r)

/-- `LedgerExchange.sum_production` (`broker.py:34-37`): `0` for unknown
production ids, else the sum of the recorded quantities. -/
def sumLedger (L : LedgerList) (production_id : Nat) : Int :=
  match L with
  | [] => 0
  | (pid, inner) :: rest =>
    if pid = production_id then sumInner inner else sumLedger rest production_id

/-- Dict lookup of one `(production_id, exchange_id)` pair. -/
def lookupLedger (L : LedgerList) (production_id exchange_id : Nat) : Option Exchange :=
  match L with
  | [] => none
  | (pid, inner) :: rest =>
    if pid = production_id then findInner inner exchange_id
    else lookupLedger rest production_id exchange_id

/-- The per-node exchange ledger (`broker.py:9-37`). -/
structure LedgerExchange where
  ledger : LedgerList
deriving DecidableEq, Repr

def LedgerExchange.add (l : LedgerExchange) (ex : Exchange) : Except String LedgerExchange :=
  (addLedger l.ledger ex).map LedgerExchange.mk

/-- `LedgerExchange.add_all`: sequential add (`broker.py:14-16`). -/
def LedgerExchange.add_all (l : LedgerExchange) (exs : List Exchange) : Except String LedgerExchange :=
  match exs with
  | [] => .ok l
  | e :: rest => match l.add e with
    | .error s => .error s
    | .ok l2 => l2.add_all rest

def LedgerExchange.delete (l : LedgerExchange) (ex : Exchange) : Except String LedgerExchange :=
  (deleteLedger l.ledger ex).map LedgerExchange.mk

/-- `LedgerExchange.delete_all`: sequential delete (`broker.py:30-32`). -/
def LedgerExchange.delete_all (l : LedgerExchange) (exs : List Exchange) : Except String LedgerExchange :=
  match exs with
  | [] => .ok l
  | e :: rest => match l.delete e with
    | .error s => .error s
    | .ok l2 => l2.delete_all rest

def LedgerExchange.sum_production (l : LedgerExchange) (production_id : Nat) : Int :=
  sumLedger l.ledger production_id

def LedgerExchange.lookup (l : LedgerExchange) (production_id exchange_id : Nat) : Option Exchange :=
  lookupLedger l.ledger production_id exchange_id

/-- Representation invariant of the Python dicts: inside every inner dict
each exchange id is bound at most once. -/
def LedgerExchange.InnerKeysNodup (l : LedgerExchange) : Prop :=
  ∀ p ∈ l.ledger, (p.2.map Prod.fst).Nodup

/-- All quantities recorded in the ledger are positive. -/
def LedgerExchange.PosQuantities (l : LedgerExchange) : Prop :=
  ∀ p ∈ l.ledger, ∀ e ∈ p.2, 0 < e.2.quantity

/-! ## Broker

The broker's mutable attributes (`broker.py:40-64`).  `tell`/`ask` closures
and the solver `optimize_adequacy` are external collaborators (spec §6) and
are passed to the handlers as oracle parameters; `uuid_generate` is modelled
by the `counter` field (each minted id is the current counter value, and the
counter advances). -/
structure Broker where
  name : String
  min_exchange : Int
  consumptions : List Consumption
  raw_productions : List Production
  borders : List Border
  ledger_exchanges : LedgerExchange
  state : NodeState
  counter : Nat
deriving DecidableEq, Repr

/-- The local adequacy optimizer (spec §6): pure function
`(consumptions, productions) -> NodeState`, out of the core's scope. -/
abbrev Optimizer := List Consumption → List Production → NodeState

/-- The blocking `ask(to, mes)` round-trip for a `ProposalOffer`,
returning the `Exchange[]` reply (spec §6). -/
abbrev AskOracle := String → ProposalOffer → List Exchange

/-- Modelled from the spec: `dispatcher/domain.py` (the class `Border`) is
not under `src/`; the spec (§3) defines `Border` as the record
`{dest, cost, quantity}` and gives it no equality with strings, so the
Python test `b == n` between a `Border` instance and a `str` element `n`
of `path_node` evaluates to `False` for every element. -/
def borderEqStr (_ : Border) (_ : String) : Bool :=
  false

/-- Python `b in prop.path_node` where `b` is a `Border` and the list holds
node names (`broker.py:85`). -/
def borderInPath (b : Border) (path : List String) : Bool :=
  path.any (fun n => borderEqStr b n)

/-- `Broker.send_proposal` (`broker.py:69-86`) as the list of
`(destination, Proposal)` pairs passed to `tell`, in emission order: for
each border, one proposal per production with the border cost added and
`path_node = [self.name] + path_node`, kept when `b not in prop.path_node`. -/
def Broker.send_proposal (b : Broker) (productions : List Production)
    (path_node : List String) : List (String × Proposal) :=
  b.borders.flatMap (fun bd =>
    ((productions.map (fun prod =>
        Proposal.mk prod.id (prod.cost + bd.cost) prod.quantity (b.name :: path_node))).filter
      (fun prop => !borderInPath bd prop.path_node)).map (fun prop => (bd.dest, prop)))

/-- `Broker.init` (`broker.py:66-67`): proposals for every free production,
with an empty prior path. -/
def Broker.init (b : Broker) : List (String × Proposal) :=
  b.send_proposal b.state.productions_free []

/-- `Broker.find_production` (`broker.py:257-259`): first production with
the given id; Python raises `IndexError` when there is none, hence `Option`. -/
def Broker.find_production (prods : List Production) (id : Nat) : Option Production :=
  (prods.filter (fun x => x.id == id)).head?

/-- `Broker.find_exchanges` (`broker.py:253-255`): the non-null `exchange`
backing references. -/
def Broker.find_exchanges (prods : List Production) : List Exchange :=
  prods.filterMap (fun prod => prod.exchange)

/-- `Broker.generate_exchanges` (`broker.py:220-231`).  `length` is Python's
`int(quantity / min_exchange)`: float division truncated toward zero, i.e.
`Int.tdiv`; `range(0, length)` is empty when `length` is not positive
(`Int.toNat` sends non-positives to `0`); the remainder exchange is
appended whenever `remain` is a non-zero integer (Python truthiness).
Returns the exchanges and the advanced uuid counter. -/
def Broker.generate_exchanges (min_exchange : Int) (production_id : Nat)
    (quantity : Int) (path_node : List String) (counter : Nat) :
    List Exchange × Nat :=
  let length := Int.tdiv quantity min_exchange
  let main := (List.range length.toNat).map (fun i =>
    Exchange.mk (counter + i) production_id min_exchange path_node)
  let remain := quantity - length * min_exchange
  if remain ≠ 0 then
    (main ++ [Exchange.mk (counter + length.toNat) production_id remain path_node],
      counter + length.toNat + 1)
  else (main, counter + length.toNat)

/-- `Broker.receive_proposal_offer` (`broker.py:103-128`).  With more than
one hop left the offer is forwarded one hop toward the producer through the
`ask` oracle and its reply returned verbatim; at the producing hop the
served quantity is `min(offer.quantity, quantity_free - quantity_used)`,
the generated exchanges are recorded in the ledger only when that quantity
is positive, and (deep copies of) them are returned. -/
def Broker.receive_proposal_offer (ask : AskOracle) (b : Broker)
    (proposal : ProposalOffer) : Except String (Broker × List Exchange) :=
  match proposal.path_node with
  | _ :: next :: rest =>
    .ok (b, ask next { proposal with path_node := next :: rest })
  | _ =>
    match Broker.find_production b.state.productions_free proposal.production_id with
    | none => .error "IndexError"
    | some prodFree =>
      let quantity_free := prodFree.quantity
      let quantity_used := b.ledger_exchanges.sum_production proposal.production_id
      let quantity_exchange := min proposal.quantity (quantity_free - quantity_used)
      let gen := Broker.generate_exchanges b.min_exchange proposal.production_id
        quantity_exchange proposal.return_path_node b.counter
      if 0 < quantity_exchange then
        match b.ledger_exchanges.add_all gen.1 with
        | .error s => .error s
        | .ok l2 =>
          .ok ({ b with ledger_exchanges := l2, counter := gen.2 }, gen.1)
      else .ok ({ b with counter := gen.2 }, gen.1)

/-- The tentative import production synthesized by `receive_proposal`
(`broker.py:96`). -/
def importProduction (proposal : Proposal) : Production :=
  { id := proposal.production_id, cost := proposal.cost,
    quantity := proposal.quantity, type := "import", exchange := none }

/-- Python `proposal.path_node[-2::-1]` (`broker.py:145`): the slice with
step `-1` starting at the second-to-last element, i.e. all elements but
the last, reversed. -/
def sliceSecondLastDown (l : List String) : List String :=
  (l.take (l.length - 1)).reverse

/-- The `ProposalOffer` built by `make_offer` (`broker.py:141-145`). -/
def Broker.build_offer (b : Broker) (proposal : Proposal)
    (prod_asked : Production) : ProposalOffer :=
  { production_id := proposal.production_id, cost := proposal.cost,
    quantity := prod_asked.quantity, path_node := proposal.path_node,
    return_path_node := sliceSecondLastDown proposal.path_node ++ [b.name] }

/-- `Broker.send_remain_proposal` (`broker.py:187-200`) as the emitted
`(destination, Proposal)` pairs: a leftover proposal is spread exactly when
`asked_quantity < proposal.quantity and asked_quantity == given_quantity`. -/
def Broker.send_remain_proposal (b : Broker) (proposal : Proposal)
    (asked_quantity given_quantity : Int) : List (String × Proposal) :=
  if asked_quantity < proposal.quantity ∧ asked_quantity = given_quantity then
    b.send_proposal
      [{ id := proposal.production_id, cost := proposal.cost,
         quantity := proposal.quantity - asked_quantity }]
      proposal.path_node
  else []

/-- One entry of the grouping dict of `send_cancel_exchange`
(`broker.py:209-214`): key, collected exchanges, last written path. -/
abbrev CancelGroup := Nat × List Exchange × List String

/-- One step of the grouping loop: append the exchange to its production's
group (creating the group at the end on first sight, as dict insertion
does) and overwrite the group's path with this exchange's path. -/
def upsertCancelGroup (acc : List CancelGroup) (ex : Exchange) : List CancelGroup :=
  match acc with
  | [] => [(ex.production_id, [ex], ex.path_node)]
  | (pid, grp, _path) :: rest =>
    if pid = ex.production_id then (pid, grp ++ [ex], ex.path_node) :: rest
    else (pid, grp, _path) :: upsertCancelGroup rest ex

/-- The grouping dict built by `send_cancel_exchange` (`broker.py:209-214`),
in insertion order. -/
def groupCancel (exchanges : List Exchange) : List CancelGroup :=
  exchanges.foldl upsertCancelGroup []

/-- The emission loop of `send_cancel_exchange` (`broker.py:216-218`): one
`ConsumerCanceledExchange` per group, told to `path[0]`; Python indexes
`path[0]`, raising `IndexError` on an empty group path. -/
def tellsOfGroups (groups : List CancelGroup) :
    Except String (List (String × ConsumerCanceledExchange)) :=
  match groups with
  | [] => .ok []
  | g :: rest =>
    match g.2.2 with
    | [] => .error "IndexError"
    | d :: p =>
      match tellsOfGroups rest with
      | .error s => .error s
      | .ok ms => .ok ((d, ConsumerCanceledExchange.mk g.2.1 (d :: p)) :: ms)

/-- `Broker.send_cancel_exchange` (`broker.py:202-218`) as the emitted
`(destination, ConsumerCanceledExchange)` pairs. -/
def send_cancel_exchange (exchanges : List Exchange) :
    Except String (List (String × ConsumerCanceledExchange)) :=
  tellsOfGroups (groupCancel exchanges)

/-- A well-formed cancellation group: nonempty, homogeneous in
`production_id` (equal to the group key), and its path is the path of one
of its members. -/
def GoodGroup (g : CancelGroup) : Prop :=
  g.2.1 ≠ []
    ∧ (∀ e ∈ g.2.1, e.production_id = g.1)
    ∧ (∃ e ∈ g.2.1, g.2.2 = e.path_node)

/-- A message passed to `tell` by a handler. -/
inductive SentMsg where
  | prop (dest : String) (p : Proposal)
  | cancel (dest : String) (c : ConsumerCanceledExchange)
deriving DecidableEq, Repr

/-- `Broker.make_offer` (`broker.py:131-165`): build the offer, `ask` it to
`path_node[0]`, relabel the returned exchanges with the forward path, wrap
them in `type=exchange` productions, re-solve, then spread the remaining
quantity and cancel the exchanges the new solve no longer wants. -/
def Broker.make_offer (opt : Optimizer) (ask : AskOracle) (b : Broker)
    (proposal : Proposal) (new_state : NodeState) :
    Except String (Broker × List SentMsg) :=
  match Broker.find_production new_state.productions_used proposal.production_id with
  | none => .error "IndexError"
  | some prod_asked =>
    let prop_asked := b.build_offer proposal prod_asked
    match proposal.path_node with
    | [] => .error "IndexError"
    | dest :: _ =>
      let exchanges := (ask dest prop_asked).map
        (fun ex => { ex with path_node := proposal.path_node })
      let prods := exchanges.map (fun ex =>
        Production.mk ex.production_id prop_asked.cost ex.quantity "exchange" (some ex))
      let state2 := opt b.consumptions
        (prods ++ (b.state.productions_used ++ b.state.productions_free))
      let b2 := { b with state := state2 }
      let exchanges_quantity := (exchanges.map (fun ex => ex.quantity)).sum
      let remainMsgs := (b2.send_remain_proposal proposal prop_asked.quantity
        exchanges_quantity).map (fun p => SentMsg.prop p.1 p.2)
      match send_cancel_exchange (Broker.find_exchanges state2.productions_free) with
      | .error s => .error s
      | .ok cancelMsgs =>
        .ok (b2, remainMsgs ++ cancelMsgs.map (fun c => SentMsg.cancel c.1 c.2))

/-- `Broker.receive_proposal` (`broker.py:88-101`): re-solve with the
tentative import production added; make an offer on a strict cost
improvement, otherwise spread the proposal to the borders. -/
def Broker.receive_proposal (opt : Optimizer) (ask : AskOracle) (b : Broker)
    (proposal : Proposal) : Except String (Broker × List SentMsg) :=
  let prod := importProduction proposal
  let new_state := opt b.consumptions
    (prod :: (b.state.productions_used ++ b.state.productions_free))
  if new_state.cost < b.state.cost then
    Broker.make_offer opt ask b proposal new_state
  else
    .ok (b, (b.send_proposal [prod] proposal.path_node).map
      (fun p => SentMsg.prop p.1 p.2))

/-- `Broker.receive_cancel_exchange` (`broker.py:167-185`): forward when the
path has a next hop; at the producing hop delete the exchanges from the
ledger and re-announce the freed capacity (`cancel.exchanges[0]` and the
raw-production cost lookup raise `IndexError` when absent). -/
def Broker.receive_cancel_exchange (b : Broker)
    (cancel : ConsumerCanceledExchange) : Except String (Broker × List SentMsg) :=
  match cancel.path_node with
  | _ :: next :: rest =>
    .ok (b, [SentMsg.cancel next { cancel with path_node := next :: rest }])
  | _ =>
    match b.ledger_exchanges.delete_all cancel.exchanges with
    | .error s => .error s
    | .ok l2 =>
      let quantity := (cancel.exchanges.map (fun ex => ex.quantity)).sum
      match cancel.exchanges with
      | [] => .error "IndexError"
      | e0 :: _ =>
        match (b.raw_productions.filter (fun p => p.id == e0.production_id)).head? with
        | none => .error "IndexError"
        | some p =>
          let prod_free : Production :=
            { id := e0.production_id, cost := p.cost, quantity := quantity }
          let b2 := { b with ledger_exchanges := l2 }
          .ok (b2, (b2.send_proposal [prod_free] []).map (fun m => SentMsg.prop m.1 m.2))

/-- `Broker.compute_total` (`broker.py:233-245`). -/
def Broker.compute_total (b : Broker) :
    List Consumption × List Production × List Border :=
  (b.consumptions,
   b.raw_productions.map (fun p =>
     { p with quantity :=
        ((b.state.productions_used.filter (fun used => used.id == p.id)).map
          (fun used => used.quantity)).sum
        + b.ledger_exchanges.sum_production p.id }),
   [])

/-- The messages a dispatcher can route to its broker (`actor.py:57-80`). -/
inductive Msg where
  | start
  | snapshot
  | next
  | proposal (p : Proposal)
  | offer (p : ProposalOffer)
  | cancel (c : ConsumerCanceledExchange)
deriving DecidableEq, Repr

/-- Reply value of a handler, when any. -/
inductive Reply where
  | unit
  | exchanges (ex : List Exchange)
  | total (t : List Consumption × List Production × List Border)
deriving DecidableEq, Repr

/-- `Dispatcher.on_receive` (`actor.py:57-80`): routes one inbound message
to the matching broker handler, returning the updated broker, the messages
passed to `tell` and the reply. -/
def Dispatcher.on_receive (opt : Optimizer) (ask : AskOracle) (b : Broker)
    (m : Msg) : Except String (Broker × List SentMsg × Reply) :=
  match m with
  | .start => .ok (b, b.init.map (fun p => SentMsg.prop p.1 p.2), .unit)
  | .snapshot => .ok (b, [], .unit)
  | .next => .ok (b, [], .total b.compute_total)
  | .proposal p =>
    match Broker.receive_proposal opt ask b p with
    | .error s => .error s
    | .ok (b2, sent) => .ok (b2, sent, .unit)
  | .offer p =>
    match Broker.receive_proposal_offer ask b p with
    | .error s => .error s
    | .ok (b2, ex) => .ok (b2, [], .exchanges ex)
  | .cancel c =>
    match Broker.receive_cancel_exchange b c with
    | .error s => .error s
    | .ok (b2, sent) => .ok (b2, sent, .unit)

/-- The quantity served at the producing hop of `receive_proposal_offer`
(`broker.py:118-121`): `min(proposal.quantity, quantity_free - quantity_used)`
for the free production found for the offer's id. -/
def servedQuantity (b : Broker) (po : ProposalOffer) (prodFree : Production) : Int :=
  min po.quantity
    (prodFree.quantity - b.ledger_exchanges.sum_production po.production_id)

/-! ## Concrete fixtures used to evaluate the handlers -/

/-- Node `A` with a single border to `B` and an empty ledger. -/
def brokerA : Broker :=
  { name := "A", min_exchange := 1, consumptions := [], raw_productions := [],
    borders := [Border.mk "B" 0 10], ledger_exchanges := LedgerExchange.mk [],
    state := NodeState.mk 0 [] [], counter := 0 }

/-- A producing node `B` whose solver state still shows `quantity = 0` free
on production `7` while its ledger already records `1` sold unit, so an
incoming offer computes a negative `quantity_exchange`. -/
def brokerB : Broker :=
  { name := "B", min_exchange := 2, consumptions := [],
    raw_productions := [Production.mk 7 5 10 "local" none],
    borders := [],
    ledger_exchanges := LedgerExchange.mk [(7, [(0, Exchange.mk 0 7 1 [])])],
    state := NodeState.mk 0 [] [Production.mk 7 5 0 "local" none],
    counter := 5 }

/-- A producing node `C` with `10` free units on production `7`, an empty
ledger and `min_exchange = 2`. -/
def brokerC : Broker :=
  { name := "C", min_exchange := 2, consumptions := [],
    raw_productions := [Production.mk 7 5 10 "local" none],
    borders := [],
    ledger_exchanges := LedgerExchange.mk [],
    state := NodeState.mk 0 [] [Production.mk 7 5 10 "local" none],
    counter := 0 }

/-- An offer of `5` units of production `7` arriving at its producing hop. -/
def offerAtProducer : ProposalOffer := ProposalOffer.mk 7 5 5 ["B"] ["A"]

/-- An `ask` oracle whose replies are never used in the closed evaluations. -/
def askNone : AskOracle := fun _ _ => []

/-- An offer of `5` units of production `7` at its producing hop on `C`. -/
def offerC : ProposalOffer := ProposalOffer.mk 7 5 5 ["C"] ["A"]

/-- The free production `brokerC`'s solver state exposes for id `7`. -/
def freeC : Production := Production.mk 7 5 10 "local" none

/-- The exchanges `brokerC` generates for `offerC`
(`5 = 2 + 2 + 1` with `min_exchange = 2`). -/
def replyC : List Exchange :=
  [Exchange.mk 0 7 2 ["A"], Exchange.mk 1 7 2 ["A"], Exchange.mk 2 7 1 ["A"]]

/-- `brokerC` after serving `offerC`. -/
def brokerC2 : Broker :=
  { brokerC with
    ledger_exchanges := LedgerExchange.mk
      [(7, [(0, Exchange.mk 0 7 2 ["A"]), (1, Exchange.mk 1 7 2 ["A"]),
            (2, Exchange.mk 2 7 1 ["A"])])],
    counter := 3 }

/-- A solver oracle returning a fixed expensive state, so that proposals
never improve the cost. -/
def optExpensive : Optimizer := fun _ _ => NodeState.mk 100 [] []

/-! ## Ledger lemmas -/

theorem sumInner_append (inner : Inner) (p : Nat × Exchange) :
    sumInner (inner ++ [p]) = sumInner inner + p.2.quantity := by
  simp [sumInner]

/-- Effect of one `add` on every per-production sum. -/
theorem addLedger_sum {L L' : LedgerList} {ex : Exchange}
    (h : addLedger L ex = .ok L') (pid : Nat) :
    sumLedger L' pid
      = sumLedger L pid + (if ex.production_id = pid then ex.quantity else 0) := by
  induction L generalizing L' with
  | nil =>
    simp only [addLedger, Except.ok.injEq] at h
    subst h
    by_cases hp : ex.production_id = pid <;>
      simp [sumLedger, sumInner, hp]
  | cons head rest ih =>
    obtain ⟨p, inner⟩ := head
    simp only [addLedger] at h
    by_cases hp : p = ex.production_id
    · rw [if_pos hp] at h
      by_cases hk : innerHasKey inner ex.id
      · simp [hk] at h
      · simp only [hk, Bool.false_eq_true, if_false, Except.ok.injEq] at h
        subst h
        by_cases hpid : p = pid
        · simp [sumLedger, hpid, sumInner_append, hp ▸ hpid]
        · have : ¬ ex.production_id = pid := fun hc => hpid (hp.trans hc)
          simp [sumLedger, hpid, this]
    · rw [if_neg hp] at h
      cases hrest : addLedger rest ex with
      | error s => simp [hrest, Except.map] at h
      | ok r =>
        simp only [hrest, Except.map, Except.ok.injEq] at h
        subst h
        by_cases hpid : p = pid
        · have : ¬ ex.production_id = pid := fun hc => hp (hpid.trans hc.symm)
          simp [sumLedger, hpid, this]
        · simp [sumLedger, hpid, ih hrest]

/-- Effect of `add_all` on every per-production sum: the sum grows by the
added quantities belonging to that production. -/
theorem add_all_sum {l l' : LedgerExchange} {exs : List Exchange}
    (h : l.add_all exs = .ok l') (pid : Nat) :
    l'.sum_production pid
      = l.sum_production pid
        + ((exs.filter (fun e => e.production_id = pid)).map
            (fun e => e.quantity)).sum := by
  induction exs generalizing l with
  | nil =>
    simp only [LedgerExchange.add_all, Except.ok.injEq] at h
    subst h
    simp
  | cons e rest ih =>
    simp only [LedgerExchange.add_all] at h
    cases hadd : l.add e with
    | error s => simp [hadd] at h
    | ok l2 =>
      rw [hadd] at h
      have hL : addLedger l.ledger e = .ok l2.ledger := by
        unfold LedgerExchange.add at hadd
        cases haddL : addLedger l.ledger e with
        | error s => simp [haddL, Except.map] at hadd
        | ok r =>
          simp only [haddL, Except.map, Except.ok.injEq] at hadd
          rw [← hadd]
      have hstep : l2.sum_production pid
          = l.sum_production pid + (if e.production_id = pid then e.quantity else 0) :=
        addLedger_sum hL pid
      have htail := ih h
      have hfil : ((List.filter (fun e => decide (e.production_id = pid)) (e :: rest)).map
            (fun e => e.quantity)).sum
          = (if e.production_id = pid then e.quantity else 0)
            + ((List.filter (fun e => decide (e.production_id = pid)) rest).map
                (fun e => e.quantity)).sum := by
        by_cases hp : e.production_id = pid <;> simp [hp]
      rw [htail, hstep, hfil]
      ring

/-- Members surviving `eraseInner` were already present. -/
theorem mem_eraseInner {inner : Inner} {k : Nat} {p : Nat × Exchange}
    (h : p ∈ eraseInner inner k) : p ∈ inner := by
  induction inner with
  | nil => simp [eraseInner] at h
  | cons q rest ih =>
    obtain ⟨i, e⟩ := q
    by_cases hi : i = k
    · simp only [eraseInner, if_pos hi] at h
      exact List.mem_cons_of_mem _ h
    · simp only [eraseInner, if_neg hi, List.mem_cons] at h
      rcases h with h | h
      · exact h ▸ List.mem_cons_self _ _
      · exact List.mem_cons_of_mem _ (ih h)

/-- Erasing one binding cannot increase the inner sum when all stored
quantities are nonnegative. -/
theorem sumInner_eraseInner_le {inner : Inner} {k : Nat}
    (hpos : ∀ e ∈ inner, 0 ≤ e.2.quantity) :
    sumInner (eraseInner inner k) ≤ sumInner inner := by
  induction inner with
  | nil => simp [eraseInner]
  | cons q rest ih =>
    obtain ⟨i, e⟩ := q
    by_cases hi : i = k
    · simp only [eraseInner, if_pos hi]
      have hq : (0 : Int) ≤ e.quantity := by
        simpa using hpos (i, e) (List.mem_cons_self _ _)
      simp only [sumInner, List.map_cons, List.sum_cons]
      omega
    · simp only [eraseInner, if_neg hi, sumInner, List.map_cons, List.sum_cons]
      have hrec := ih (fun e he => hpos e (List.mem_cons_of_mem _ he))
      simp only [sumInner] at hrec
      omega

/-- Effect of one `delete` on every per-production sum: it never grows,
provided the stored quantities are nonnegative. -/
theorem deleteLedger_sum_le {L L' : LedgerList} {ex : Exchange}
    (hpos : ∀ p ∈ L, ∀ e ∈ p.2, 0 < e.2.quantity)
    (h : deleteLedger L ex = .ok L') (pid : Nat) :
    sumLedger L' pid ≤ sumLedger L pid := by
  induction L generalizing L' with
  | nil =>
    simp only [deleteLedger, Except.ok.injEq] at h
    subst h
    exact le_refl _
  | cons head rest ih =>
    obtain ⟨p, inner⟩ := head
    simp only [deleteLedger] at h
    by_cases hp : p = ex.production_id
    · rw [if_pos hp] at h
      by_cases hk : innerHasKey inner ex.id
      · simp only [hk, if_true, Except.ok.injEq] at h
        subst h
        by_cases hpid : p = pid
        · simp only [sumLedger, if_pos hpid]
          exact sumInner_eraseInner_le (fun e he =>
            le_of_lt (hpos (p, inner) (List.mem_cons_self _ _) e he))
        · simp [sumLedger, hpid]
      · simp [hk] at h
    · rw [if_neg hp] at h
      cases hrest : deleteLedger rest ex with
      | error s => simp [hrest, Except.map] at h
      | ok r =>
        simp only [hrest, Except.map, Except.ok.injEq] at h
        subst h
        by_cases hpid : p = pid
        · simp [sumLedger, hpid]
        · simp only [sumLedger, if_neg hpid]
          exact ih (fun q hq e he => hpos q (List.mem_cons_of_mem _ hq) e he) hrest

/-- `delete` keeps every stored quantity positive. -/
theorem deleteLedger_pos {L L' : LedgerList} {ex : Exchange}
    (hpos : ∀ p ∈ L, ∀ e ∈ p.2, 0 < e.2.quantity)
    (h : deleteLedger L ex = .ok L') :
    ∀ p ∈ L', ∀ e ∈ p.2, 0 < e.2.quantity := by
  induction L generalizing L' with
  | nil =>
    simp only [deleteLedger, Except.ok.injEq] at h
    subst h
    exact hpos
  | cons head rest ih =>
    obtain ⟨p, inner⟩ := head
    simp only [deleteLedger] at h
    by_cases hp : p = ex.production_id
    · rw [if_pos hp] at h
      by_cases hk : innerHasKey inner ex.id
      · simp only [hk, if_true, Except.ok.injEq] at h
        subst h
        intro q hq e he
        rcases List.mem_cons.mp hq with h1 | h1
        · subst h1
          exact hpos (p, inner) (List.mem_cons_self _ _) e (mem_eraseInner he)
        · exact hpos q (List.mem_cons_of_mem _ h1) e he
      · simp [hk] at h
    · rw [if_neg hp] at h
      cases hrest : deleteLedger rest ex with
      | error s => simp [hrest, Except.map] at h
      | ok r =>
        simp only [hrest, Except.map, Except.ok.injEq] at h
        subst h
        intro q hq e he
        rcases List.mem_cons.mp hq with h1 | h1
        · subst h1
          exact hpos (p, inner) (List.mem_cons_self _ _) e he
        · exact ih (fun q hq e he => hpos q (List.mem_cons_of_mem _ hq) e he) hrest q h1 e he

/-- `add` keeps every stored quantity positive when the added one is. -/
theorem addLedger_pos {L L' : LedgerList} {ex : Exchange}
    (hpos : ∀ p ∈ L, ∀ e ∈ p.2, 0 < e.2.quantity) (hex : 0 < ex.quantity)
    (h : addLedger L ex = .ok L') :
    ∀ p ∈ L', ∀ e ∈ p.2, 0 < e.2.quantity := by
  induction L generalizing L' with
  | nil =>
    simp only [addLedger, Except.ok.injEq] at h
    subst h
    intro p hp e he
    simp only [List.mem_singleton] at hp
    subst hp
    simp only [List.mem_singleton] at he
    subst he
    exact hex
  | cons head rest ih =>
    obtain ⟨p, inner⟩ := head
    simp only [addLedger] at h
    by_cases hp : p = ex.production_id
    · rw [if_pos hp] at h
      by_cases hk : innerHasKey inner ex.id
      · simp [hk] at h
      · simp only [hk, Bool.false_eq_true, if_false, Except.ok.injEq] at h
        subst h
        intro q hq e he
        rcases List.mem_cons.mp hq with h1 | h1
        · subst h1
          rcases List.mem_append.mp he with h2 | h2
          · exact hpos (p, inner) (List.mem_cons_self _ _) e h2
          · simp only [List.mem_singleton] at h2
            subst h2
            exact hex
        · exact hpos q (List.mem_cons_of_mem _ h1) e he
    · rw [if_neg hp] at h
      cases hrest : addLedger rest ex with
      | error s => simp [hrest, Except.map] at h
      | ok r =>
        simp only [hrest, Except.map, Except.ok.injEq] at h
        subst h
        intro q hq e he
        rcases List.mem_cons.mp hq with h1 | h1
        · subst h1
          exact hpos (p, inner) (List.mem_cons_self _ _) e he
        · exact ih (fun q hq e he => hpos q (List.mem_cons_of_mem _ hq) e he) hrest q h1 e he

theorem findInner_append_of_none {inner l2 : Inner} {k : Nat}
    (h : findInner inner k = none) :
    findInner (inner ++ l2) k = findInner l2 k := by
  induction inner with
  | nil => simp
  | cons q rest ih =>
    obtain ⟨i, e⟩ := q
    by_cases hi : i = k
    · simp [findInner, hi] at h
    · simp only [findInner, if_neg hi] at h
      simpa [findInner, hi] using ih h

/-- The keys of `eraseInner inner k` form a sublist of the keys of `inner`. -/
theorem keys_eraseInner_sublist (inner : Inner) (k : Nat) :
    ((eraseInner inner k).map Prod.fst).Sublist (inner.map Prod.fst) := by
  induction inner with
  | nil => simp [eraseInner]
  | cons q rest ih =>
    obtain ⟨i, e⟩ := q
    by_cases hi : i = k
    · simp only [eraseInner, if_pos hi, List.map_cons]
      exact (List.sublist_cons_self _ _)
    · simp only [eraseInner, if_neg hi, List.map_cons]
      exact ih.cons₂ i

/-- After erasing `k` from an inner dict with no duplicate keys, `k` is
gone. -/
theorem findInner_eraseInner_self {inner : Inner} {k : Nat}
    (hnd : (inner.map Prod.fst).Nodup) :
    findInner (eraseInner inner k) k = none := by
  induction inner with
  | nil => simp [eraseInner, findInner]
  | cons q rest ih =>
    obtain ⟨i, e⟩ := q
    simp only [List.map_cons, List.nodup_cons] at hnd
    by_cases hi : i = k
    · simp only [eraseInner, if_pos hi]
      subst hi
      cases hfind : findInner rest i with
      | none => rfl
      | some e2 =>
        exfalso
        have : i ∈ rest.map Prod.fst := by
          clear hnd ih
          induction rest with
          | nil => simp [findInner] at hfind
          | cons r rrest ihr =>
            obtain ⟨j, f⟩ := r
            by_cases hj : j = i
            · simp [hj]
            · simp only [findInner, if_neg hj] at hfind
              simp [ihr hfind]
        exact hnd.1 this
    · simp only [eraseInner, if_neg hi, findInner, if_neg hi]
      exact ih hnd.2

/-- Erasing one key does not change the lookup of a different key. -/
theorem findInner_eraseInner_ne {inner : Inner} {k k2 : Nat} (hne : k2 ≠ k) :
    findInner (eraseInner inner k) k2 = findInner inner k2 := by
  induction inner with
  | nil => simp [eraseInner]
  | cons q rest ih =>
    obtain ⟨i, e⟩ := q
    by_cases hi : i = k
    · simp only [eraseInner, if_pos hi, findInner]
      rw [if_neg (by omega : ¬ i = k2)]
    · simp only [eraseInner, if_neg hi, findInner]
      by_cases hi2 : i = k2
      · rw [if_pos hi2, if_pos hi2]
      · rw [if_neg hi2, if_neg hi2, ih]

/-- Effect of one `delete` on every pair lookup, on dicts without duplicate
inner keys: exactly the deleted pair disappears. -/
theorem deleteLedger_lookup {L L' : LedgerList} {ex : Exchange}
    (hnd : ∀ p ∈ L, (p.2.map Prod.fst).Nodup)
    (h : deleteLedger L ex = .ok L') (pid eid : Nat) :
    lookupLedger L' pid eid
      = if pid = ex.production_id ∧ eid = ex.id then none
        else lookupLedger L pid eid := by
  induction L generalizing L' with
  | nil =>
    simp only [deleteLedger, Except.ok.injEq] at h
    subst h
    simp [lookupLedger]
  | cons head rest ih =>
    obtain ⟨p, inner⟩ := head
    simp only [deleteLedger] at h
    by_cases hp : p = ex.production_id
    · rw [if_pos hp] at h
      by_cases hk : innerHasKey inner ex.id
      · simp only [hk, if_true, Except.ok.injEq] at h
        subst h
        by_cases hpid : p = pid
        · simp only [lookupLedger, if_pos hpid]
          by_cases heid : eid = ex.id
          · subst heid
            rw [if_pos ⟨by omega, rfl⟩, findInner_eraseInner_self
              (hnd (p, inner) (List.mem_cons_self _ _))]
          · rw [if_neg (by tauto), findInner_eraseInner_ne heid]
        · simp only [lookupLedger, if_neg hpid]
          rw [if_neg (by omega)]
      · simp [hk] at h
    · rw [if_neg hp] at h
      cases hrest : deleteLedger rest ex with
      | error s => simp [hrest, Except.map] at h
      | ok r =>
        simp only [hrest, Except.map, Except.ok.injEq] at h
        subst h
        by_cases hpid : p = pid
        · simp only [lookupLedger, if_pos hpid]
          rw [if_neg (by omega)]
        · simp only [lookupLedger, if_neg hpid]
          exact ih (fun q hq => hnd q (List.mem_cons_of_mem _ hq)) hrest

/-- `delete` preserves the no-duplicate-inner-keys invariant. -/
theorem deleteLedger_nodup {L L' : LedgerList} {ex : Exchange}
    (hnd : ∀ p ∈ L, (p.2.map Prod.fst).Nodup)
    (h : deleteLedger L ex = .ok L') :
    ∀ p ∈ L', (p.2.map Prod.fst).Nodup := by
  induction L generalizing L' with
  | nil =>
    simp only [deleteLedger, Except.ok.injEq] at h
    subst h
    exact hnd
  | cons head rest ih =>
    obtain ⟨p, inner⟩ := head
    simp only [deleteLedger] at h
    by_cases hp : p = ex.production_id
    · rw [if_pos hp] at h
      by_cases hk : innerHasKey inner ex.id
      · simp only [hk, if_true, Except.ok.injEq] at h
        subst h
        intro q hq
        rcases List.mem_cons.mp hq with h1 | h1
        · subst h1
          exact (hnd (p, inner) (List.mem_cons_self _ _)).sublist
            (keys_eraseInner_sublist inner ex.id)
        · exact hnd q (List.mem_cons_of_mem _ h1)
      · simp [hk] at h
    · rw [if_neg hp] at h
      cases hrest : deleteLedger rest ex with
      | error s => simp [hrest, Except.map] at h
      | ok r =>
        simp only [hrest, Except.map, Except.ok.injEq] at h
        subst h
        intro q hq
        rcases List.mem_cons.mp hq with h1 | h1
        · subst h1
          exact hnd (p, inner) (List.mem_cons_self _ _)
        · exact ih (fun q hq => hnd q (List.mem_cons_of_mem _ hq)) hrest q h1

/-- An `add` whose `(production_id, exchange_id)` pair is already stored
fails with the `ValueError` message. -/
theorem addLedger_lookup_present {L : LedgerList} {ex : Exchange} {e0 : Exchange}
    (h : lookupLedger L ex.production_id ex.id = some e0) :
    addLedger L ex = .error "Exchange already stored in ledger" := by
  induction L with
  | nil => simp [lookupLedger] at h
  | cons head rest ih =>
    obtain ⟨p, inner⟩ := head
    by_cases hp : p = ex.production_id
    · simp only [lookupLedger, if_pos hp] at h
      have : innerHasKey inner ex.id := by
        simp [innerHasKey, h]
      simp [addLedger, hp, this]
    · simp only [lookupLedger, if_neg hp] at h
      simp [addLedger, hp, ih h, Except.map]

/-- An `add` whose `(production_id, exchange_id)` pair is absent succeeds
and records the exchange under that pair. -/
theorem addLedger_lookup_absent {L : LedgerList} {ex : Exchange}
    (h : lookupLedger L ex.production_id ex.id = none) :
    ∃ L', addLedger L ex = .ok L'
      ∧ lookupLedger L' ex.production_id ex.id = some ex := by
  induction L with
  | nil =>
    refine ⟨[(ex.production_id, [(ex.id, ex)])], rfl, ?_⟩
    simp [lookupLedger, findInner]
  | cons head rest ih =>
    obtain ⟨p, inner⟩ := head
    by_cases hp : p = ex.production_id
    · simp only [lookupLedger, if_pos hp] at h
      have hk : ¬ innerHasKey inner ex.id := by
        simp [innerHasKey, h]
      refine ⟨(p, inner ++ [(ex.id, ex)]) :: rest, by simp [addLedger, hp, hk], ?_⟩
      simp only [lookupLedger, if_pos hp]
      rw [findInner_append_of_none h]
      simp [findInner]
    · simp only [lookupLedger, if_neg hp] at h
      obtain ⟨R, hR, hlook⟩ := ih h
      refine ⟨(p, inner) :: R, ?_, ?_⟩
      · simp [addLedger, hp, hR, Except.map]
      · simpa [lookupLedger, hp] using hlook

theorem add_ok_ledger {l m : LedgerExchange} {ex : Exchange}
    (h : l.add ex = .ok m) : addLedger l.ledger ex = .ok m.ledger := by
  unfold LedgerExchange.add at h
  cases hd : addLedger l.ledger ex with
  | error s => simp [hd, Except.map] at h
  | ok r =>
    simp only [hd, Except.map, Except.ok.injEq] at h
    rw [← h]

theorem delete_ok_ledger {l m : LedgerExchange} {ex : Exchange}
    (h : l.delete ex = .ok m) : deleteLedger l.ledger ex = .ok m.ledger := by
  unfold LedgerExchange.delete at h
  cases hd : deleteLedger l.ledger ex with
  | error s => simp [hd, Except.map] at h
  | ok r =>
    simp only [hd, Except.map, Except.ok.injEq] at h
    rw [← h]

/-- `delete_all` on a ledger whose inner dicts have no duplicate keys:
exactly the listed `(production_id, exchange_id)` pairs disappear, every
other stored pair is untouched. -/
theorem delete_all_lookup {l l' : LedgerExchange} {exs : List Exchange}
    (hnd : l.InnerKeysNodup) (h : l.delete_all exs = .ok l') (pid eid : Nat) :
    l'.lookup pid eid
      = if (pid, eid) ∈ exs.map (fun e => (e.production_id, e.id)) then none
        else l.lookup pid eid := by
  induction exs generalizing l with
  | nil =>
    simp only [LedgerExchange.delete_all, Except.ok.injEq] at h
    subst h
    simp
  | cons e rest ih =>
    simp only [LedgerExchange.delete_all] at h
    cases hdel : l.delete e with
    | error s => simp [hdel] at h
    | ok m =>
      rw [hdel] at h
      have hdL := delete_ok_ledger hdel
      have hstep := deleteLedger_lookup hnd hdL pid eid
      have hmnd : m.InnerKeysNodup := deleteLedger_nodup hnd hdL
      have htail := ih hmnd h
      rw [htail]
      by_cases h1 : (pid, eid) ∈ rest.map (fun e => (e.production_id, e.id))
      · simp [h1]
      · rw [if_neg h1]
        by_cases h2 : pid = e.production_id ∧ eid = e.id
        · have : (pid, eid) ∈ (e :: rest).map (fun e => (e.production_id, e.id)) := by
            simp [h2.1, h2.2]
          rw [if_pos this]
          show m.lookup pid eid = none
          rw [show m.lookup pid eid = lookupLedger m.ledger pid eid from rfl, hstep,
            if_pos h2]
        · have : ¬ (pid, eid) ∈ (e :: rest).map (fun e => (e.production_id, e.id)) := by
            simp only [List.map_cons, List.mem_cons]
            rintro (hc | hc)
            · exact h2 ⟨congrArg Prod.fst hc, congrArg Prod.snd hc⟩
            · exact h1 hc
          rw [if_neg this]
          show m.lookup pid eid = l.lookup pid eid
          rw [show m.lookup pid eid = lookupLedger m.ledger pid eid from rfl, hstep,
            if_neg h2]
          rfl

/-- Successful `delete_all` never increases any production sum and keeps all
stored quantities positive. -/
theorem delete_all_sum_le {l l' : LedgerExchange} {exs : List Exchange}
    (hpos : l.PosQuantities) (h : l.delete_all exs = .ok l') :
    (∀ pid, l'.sum_production pid ≤ l.sum_production pid) ∧ l'.PosQuantities := by
  induction exs generalizing l with
  | nil =>
    simp only [LedgerExchange.delete_all, Except.ok.injEq] at h
    subst h
    exact ⟨fun _ => le_refl _, hpos⟩
  | cons e rest ih =>
    simp only [LedgerExchange.delete_all] at h
    cases hdel : l.delete e with
    | error s => simp [hdel] at h
    | ok m =>
      rw [hdel] at h
      have hdL := delete_ok_ledger hdel
      have hmpos : m.PosQuantities := deleteLedger_pos hpos hdL
      obtain ⟨htail, hpos'⟩ := ih hmpos h
      refine ⟨fun pid => le_trans (htail pid) ?_, hpos'⟩
      exact deleteLedger_sum_le hpos hdL pid

/-- Successful `add_all` of positive-quantity exchanges keeps all stored
quantities positive. -/
theorem add_all_pos {l l' : LedgerExchange} {exs : List Exchange}
    (hpos : l.PosQuantities) (hexs : ∀ e ∈ exs, 0 < e.quantity)
    (h : l.add_all exs = .ok l') : l'.PosQuantities := by
  induction exs generalizing l with
  | nil =>
    simp only [LedgerExchange.add_all, Except.ok.injEq] at h
    subst h
    exact hpos
  | cons e rest ih =>
    simp only [LedgerExchange.add_all] at h
    cases hadd : l.add e with
    | error s => simp [hadd] at h
    | ok m =>
      rw [hadd] at h
      have haL := add_ok_ledger hadd
      have hmpos : m.PosQuantities :=
        addLedger_pos hpos (hexs e (List.mem_cons_self _ _)) haL
      exact ih hmpos (fun e he => hexs e (List.mem_cons_of_mem _ he)) h

/-! ## generate_exchanges lemmas -/

/-- The bulk exchanges of one `generate_exchanges` call all carry
`min_exchange` as quantity. -/
theorem map_quantity_bulk (production_id : Nat) (m : Int) (path : List String)
    (c n : Nat) :
    ((List.range n).map (fun i => Exchange.mk (c + i) production_id m path)).map
        (fun e => e.quantity)
      = List.replicate n m := by
  rw [List.map_map]
  rw [show ((fun e => Exchange.quantity e)
      ∘ fun i => Exchange.mk (c + i) production_id m path) = (fun _ => m) from rfl]
  rw [List.map_const', List.length_range]

/-- The bulk exchanges of one `generate_exchanges` call carry the
consecutive ids `c, c+1, ...`. -/
theorem map_id_bulk (production_id : Nat) (m : Int) (path : List String)
    (c n : Nat) :
    ((List.range n).map (fun i => Exchange.mk (c + i) production_id m path)).map
        (fun e => e.id)
      = List.range' c n := by
  rw [List.map_map, List.range'_eq_map_range]
  rfl

theorem generate_exchanges_fields (min_exchange : Int) (production_id : Nat)
    (quantity : Int) (path_node : List String) (counter : Nat) :
    ∀ e ∈ (Broker.generate_exchanges min_exchange production_id quantity
      path_node counter).1,
      e.production_id = production_id ∧ e.path_node = path_node := by
  intro e he
  unfold Broker.generate_exchanges at he
  by_cases hr : quantity - Int.tdiv quantity min_exchange * min_exchange ≠ 0
  · rw [if_pos hr] at he
    simp only [List.mem_append, List.mem_map, List.mem_singleton] at he
    rcases he with ⟨i, _, rfl⟩ | rfl <;> exact ⟨rfl, rfl⟩
  · rw [if_neg hr] at he
    simp only [List.mem_map] at he
    obtain ⟨i, _, rfl⟩ := he
    exact ⟨rfl, rfl⟩

theorem generate_exchanges_quantities {min_exchange quantity : Int}
    (hq : 0 ≤ quantity) (hm : 0 < min_exchange) (production_id : Nat)
    (path_node : List String) (counter : Nat) :
    ((Broker.generate_exchanges min_exchange production_id quantity
        path_node counter).1.map (fun e => e.quantity))
      = List.replicate (quantity / min_exchange).toNat min_exchange
        ++ (if 0 < quantity % min_exchange then [quantity % min_exchange] else []) := by
  have hdiv : Int.tdiv quantity min_exchange = quantity / min_exchange :=
    Int.tdiv_eq_ediv hq (le_of_lt hm)
  have hmod : Int.tmod quantity min_exchange = quantity % min_exchange :=
    Int.tmod_eq_emod hq (le_of_lt hm)
  have hrem : quantity - Int.tdiv quantity min_exchange * min_exchange
      = Int.tmod quantity min_exchange := by
    have h0 := Int.tmod_add_tdiv quantity min_exchange
    linarith [h0, mul_comm min_exchange (Int.tdiv quantity min_exchange)]
  have hmodnn : 0 ≤ quantity % min_exchange := Int.emod_nonneg quantity (ne_of_gt hm)
  unfold Broker.generate_exchanges
  by_cases hr : quantity - Int.tdiv quantity min_exchange * min_exchange ≠ 0
  · have hpos : 0 < quantity % min_exchange := by
      rw [hrem, hmod] at hr
      omega
    rw [if_pos hr, if_pos hpos]
    simp only [List.map_append, List.map_singleton]
    rw [map_quantity_bulk, hdiv]
    have hsub : quantity - quantity / min_exchange * min_exchange
        = quantity % min_exchange := by
      rw [Int.emod_def]
      ring
    rw [hsub]
  · have hz : quantity % min_exchange = 0 := by
      rw [hrem, hmod] at hr
      omega
    rw [if_neg hr, if_neg (by omega : ¬ 0 < quantity % min_exchange), List.append_nil]
    rw [map_quantity_bulk, hdiv]

theorem generate_exchanges_sum {min_exchange quantity : Int}
    (hq : 0 ≤ quantity) (hm : 0 < min_exchange) (production_id : Nat)
    (path_node : List String) (counter : Nat) :
    ((Broker.generate_exchanges min_exchange production_id quantity
        path_node counter).1.map (fun e => e.quantity)).sum = quantity := by
  rw [generate_exchanges_quantities hq hm production_id path_node counter]
  have hdivnn : 0 ≤ quantity / min_exchange := Int.ediv_nonneg hq (le_of_lt hm)
  have hcast : ((quantity / min_exchange).toNat : Int) = quantity / min_exchange :=
    Int.toNat_of_nonneg hdivnn
  have hkey : quantity % min_exchange + min_exchange * (quantity / min_exchange)
      = quantity := Int.emod_add_ediv quantity min_exchange
  have hmodnn : 0 ≤ quantity % min_exchange := Int.emod_nonneg quantity (ne_of_gt hm)
  by_cases hpos : 0 < quantity % min_exchange
  · rw [if_pos hpos]
    simp only [List.sum_append, List.sum_replicate, List.sum_singleton]
    rw [nsmul_eq_mul, hcast]
    linarith [hkey, mul_comm min_exchange (quantity / min_exchange)]
  · rw [if_neg hpos]
    simp only [List.append_nil, List.sum_replicate]
    rw [nsmul_eq_mul, hcast]
    have hz : quantity % min_exchange = 0 := by omega
    linarith [hkey, mul_comm min_exchange (quantity / min_exchange), hz]

theorem generate_exchanges_pos {min_exchange quantity : Int}
    (hq : 0 ≤ quantity) (hm : 0 < min_exchange) (production_id : Nat)
    (path_node : List String) (counter : Nat) :
    ∀ e ∈ (Broker.generate_exchanges min_exchange production_id quantity
      path_node counter).1, 0 < e.quantity := by
  intro e he
  have hrem : quantity - Int.tdiv quantity min_exchange * min_exchange
      = Int.tmod quantity min_exchange := by
    have h0 := Int.tmod_add_tdiv quantity min_exchange
    linarith [h0, mul_comm min_exchange (Int.tdiv quantity min_exchange)]
  have hremnn : 0 ≤ quantity - Int.tdiv quantity min_exchange * min_exchange := by
    rw [hrem]
    exact Int.tmod_nonneg _ hq
  unfold Broker.generate_exchanges at he
  by_cases hr : quantity - Int.tdiv quantity min_exchange * min_exchange ≠ 0
  · rw [if_pos hr] at he
    simp only [List.mem_append, List.mem_map, List.mem_singleton] at he
    rcases he with ⟨i, _, rfl⟩ | rfl
    · exact hm
    · simp only
      omega
  · rw [if_neg hr] at he
    simp only [List.mem_map] at he
    obtain ⟨i, _, rfl⟩ := he
    exact hm

theorem generate_exchanges_ids (min_exchange : Int) (production_id : Nat)
    (quantity : Int) (path_node : List String) (counter : Nat) :
    ((Broker.generate_exchanges min_exchange production_id quantity
        path_node counter).1.map (fun e => e.id))
      = List.range' counter
          (Broker.generate_exchanges min_exchange production_id quantity
            path_node counter).1.length := by
  unfold Broker.generate_exchanges
  by_cases hr : quantity - Int.tdiv quantity min_exchange * min_exchange ≠ 0
  · rw [if_pos hr]
    simp only [List.map_append, List.map_singleton, List.length_append,
      List.length_map, List.length_range, List.length_singleton]
    rw [List.range'_1_concat, map_id_bulk]
  · rw [if_neg hr]
    simp only [List.length_map, List.length_range]
    rw [map_id_bulk]

theorem generate_exchanges_counter (min_exchange : Int) (production_id : Nat)
    (quantity : Int) (path_node : List String) (counter : Nat) :
    (Broker.generate_exchanges min_exchange production_id quantity
        path_node counter).2
      = counter + (Broker.generate_exchanges min_exchange production_id quantity
          path_node counter).1.length := by
  unfold Broker.generate_exchanges
  by_cases hr : quantity - Int.tdiv quantity min_exchange * min_exchange ≠ 0
  · rw [if_pos hr]
    simp only [List.length_append, List.length_map, List.length_range,
      List.length_singleton]
    omega
  · rw [if_neg hr]
    simp only [List.length_map, List.length_range]

/-! ## Handler-level invariants (spec §8) -/

/-- Spec §8 ledger bound: for every local production of the node, the
committed ledger sum never exceeds that production's total quantity. -/
def Broker.LedgerBound (b : Broker) : Prop :=
  ∀ p ∈ b.raw_productions, b.ledger_exchanges.sum_production p.id ≤ p.quantity

/-- Sanity condition on the external solver's output (spec §3, NodeState
partition invariant): a free production carrying the id of a local raw
production offers at most that production's total quantity. -/
def Broker.StateFreeBound (b : Broker) : Prop :=
  ∀ p ∈ b.raw_productions, ∀ q ∈ b.state.productions_free,
    q.id = p.id → q.quantity ≤ p.quantity

theorem find_production_mem {prods : List Production} {i : Nat} {x : Production}
    (h : Broker.find_production prods i = some x) : x ∈ prods ∧ x.id = i := by
  unfold Broker.find_production at h
  cases hf : prods.filter (fun x => x.id == i) with
  | nil => rw [hf] at h; simp at h
  | cons y ys =>
    rw [hf] at h
    simp only [List.head?_cons, Option.some.injEq] at h
    have hy : y ∈ prods.filter (fun p => p.id == i) := by
      rw [hf]
      exact List.mem_cons_self _ _
    have hm := List.mem_filter.mp hy
    rw [← h]
    exact ⟨hm.1, by simpa using hm.2⟩

/-- `make_offer` never touches the ledger, the raw productions or the uuid
counter: it only replaces the node state (and sends messages). -/
theorem make_offer_frame {opt : Optimizer} {ask : AskOracle} {b : Broker}
    {proposal : Proposal} {ns : NodeState} {b2 : Broker} {sent : List SentMsg}
    (h : Broker.make_offer opt ask b proposal ns = .ok (b2, sent)) :
    b2.ledger_exchanges = b.ledger_exchanges
      ∧ b2.raw_productions = b.raw_productions := by
  unfold Broker.make_offer at h
  dsimp only at h
  split at h
  · exact absurd h (by simp)
  · split at h
    · exact absurd h (by simp)
    · split at h
      · exact absurd h (by simp)
      · simp only [Except.ok.injEq, Prod.mk.injEq] at h
        rw [← h.1]
        exact ⟨rfl, rfl⟩

/-- `receive_proposal` never touches the ledger or the raw productions. -/
theorem receive_proposal_frame {opt : Optimizer} {ask : AskOracle} {b : Broker}
    {proposal : Proposal} {b2 : Broker} {sent : List SentMsg}
    (h : Broker.receive_proposal opt ask b proposal = .ok (b2, sent)) :
    b2.ledger_exchanges = b.ledger_exchanges
      ∧ b2.raw_productions = b.raw_productions := by
  unfold Broker.receive_proposal at h
  dsimp only at h
  split at h
  · exact make_offer_frame h
  · simp only [Except.ok.injEq, Prod.mk.injEq] at h
    rw [← h.1]
    exact ⟨rfl, rfl⟩

/-- `receive_proposal_offer` preserves the ledger bound and ledger
positivity, provided the solver's free quantities respect the raw
production quantities. -/
theorem receive_proposal_offer_inv {ask : AskOracle} {b : Broker}
    {po : ProposalOffer} {b2 : Broker} {ex : List Exchange}
    (hmin : 0 < b.min_exchange)
    (hfree : Broker.StateFreeBound b)
    (hpos : b.ledger_exchanges.PosQuantities)
    (hbound : Broker.LedgerBound b)
    (h : Broker.receive_proposal_offer ask b po = .ok (b2, ex)) :
    b2.raw_productions = b.raw_productions
      ∧ Broker.LedgerBound b2
      ∧ b2.ledger_exchanges.PosQuantities := by
  unfold Broker.receive_proposal_offer at h
  dsimp only at h
  split at h
  · simp only [Except.ok.injEq, Prod.mk.injEq] at h
    rw [← h.1]
    exact ⟨rfl, hbound, hpos⟩
  · split at h
    · exact absurd h (by simp)
    · rename_i prodFree hfind
      split at h
      · rename_i hqe
        split at h
        · exact absurd h (by simp)
        · rename_i l2 hadd
          simp only [Except.ok.injEq, Prod.mk.injEq] at h
          rw [← h.1]
          set qe := min po.quantity
            (prodFree.quantity - b.ledger_exchanges.sum_production po.production_id)
            with hqe_def
          have hqnn : 0 ≤ qe := le_of_lt hqe
          have hfields := generate_exchanges_fields b.min_exchange po.production_id
            qe po.return_path_node b.counter
          have hsum := add_all_sum hadd
          have hgen_sum := generate_exchanges_sum hqnn hmin po.production_id
            po.return_path_node b.counter
          refine ⟨rfl, ?_, ?_⟩
          · intro p hp
            show l2.sum_production p.id ≤ p.quantity
            rw [hsum p.id]
            by_cases hid : p.id = po.production_id
            · have hfil : (Broker.generate_exchanges b.min_exchange po.production_id
                  qe po.return_path_node b.counter).1.filter
                    (fun e => e.production_id = p.id)
                  = (Broker.generate_exchanges b.min_exchange po.production_id
                      qe po.return_path_node b.counter).1 := by
                apply List.filter_eq_self.mpr
                intro e he
                simp [(hfields e he).1, hid]
              rw [hfil, hgen_sum]
              obtain ⟨hmem, hidf⟩ := find_production_mem hfind
              have hle : prodFree.quantity ≤ p.quantity :=
                hfree p hp prodFree hmem (hidf.trans hid.symm)
              have hmin_le : qe ≤ prodFree.quantity
                  - b.ledger_exchanges.sum_production po.production_id :=
                min_le_right _ _
              rw [hid]
              omega
            · have hfil : (Broker.generate_exchanges b.min_exchange po.production_id
                  qe po.return_path_node b.counter).1.filter
                    (fun e => e.production_id = p.id) = [] := by
                apply List.filter_eq_nil_iff.mpr
                intro e he
                simp [(hfields e he).1, hid]
                omega
              rw [hfil]
              simp only [List.map_nil, List.sum_nil, add_zero]
              exact hbound p hp
          · exact add_all_pos hpos
              (generate_exchanges_pos hqnn hmin po.production_id
                po.return_path_node b.counter) hadd
      · simp only [Except.ok.injEq, Prod.mk.injEq] at h
        rw [← h.1]
        exact ⟨rfl, hbound, hpos⟩

/-- `receive_cancel_exchange` preserves the ledger bound and ledger
positivity. -/
theorem receive_cancel_exchange_inv {b : Broker} {c : ConsumerCanceledExchange}
    {b2 : Broker} {sent : List SentMsg}
    (hpos : b.ledger_exchanges.PosQuantities)
    (hbound : Broker.LedgerBound b)
    (h : Broker.receive_cancel_exchange b c = .ok (b2, sent)) :
    b2.raw_productions = b.raw_productions
      ∧ Broker.LedgerBound b2
      ∧ b2.ledger_exchanges.PosQuantities := by
  unfold Broker.receive_cancel_exchange at h
  dsimp only at h
  split at h
  · simp only [Except.ok.injEq, Prod.mk.injEq] at h
    rw [← h.1]
    exact ⟨rfl, hbound, hpos⟩
  · split at h
    · exact absurd h (by simp)
    · rename_i l2 hdel
      obtain ⟨hle, hpos2⟩ := delete_all_sum_le hpos hdel
      split at h
      · exact absurd h (by simp)
      · split at h
        · exact absurd h (by simp)
        · simp only [Except.ok.injEq, Prod.mk.injEq] at h
          rw [← h.1]
          refine ⟨rfl, ?_, hpos2⟩
          intro p hp
          exact le_trans (hle p.id) (hbound p hp)

/-! ## send_proposal and cancellation-grouping lemmas -/

/-- The per-border filter of `send_proposal` compares a `Border` object with
the string entries of `path_node`, so it never fires. -/
theorem borderInPath_false (bd : Border) (l : List String) :
    borderInPath bd l = false := by
  simp [borderInPath, borderEqStr]

/-- `send_proposal` in closed form: one proposal per border and production,
with the border cost added and the node's own name consed onto the path;
the loop filter drops nothing (see `borderInPath_false`). -/
theorem send_proposal_eq (b : Broker) (productions : List Production)
    (path_node : List String) :
    b.send_proposal productions path_node
      = b.borders.flatMap (fun bd => productions.map (fun prod =>
          (bd.dest, Proposal.mk prod.id (prod.cost + bd.cost) prod.quantity
            (b.name :: path_node)))) := by
  unfold Broker.send_proposal
  simp only [borderInPath_false, Bool.not_false, List.filter_true, List.map_map]
  rfl

theorem upsertCancelGroup_good {acc : List CancelGroup} {ex : Exchange}
    (h : ∀ g ∈ acc, GoodGroup g) :
    ∀ g ∈ upsertCancelGroup acc ex, GoodGroup g := by
  induction acc with
  | nil =>
    intro g hg
    simp only [upsertCancelGroup, List.mem_singleton] at hg
    subst hg
    exact ⟨by simp, by simp, ex, by simp⟩
  | cons head rest ih =>
    obtain ⟨pid, grp, path⟩ := head
    intro g hg
    simp only [upsertCancelGroup] at hg
    by_cases hp : pid = ex.production_id
    · rw [if_pos hp] at hg
      rcases List.mem_cons.mp hg with h1 | h1
      · subst h1
        have hgood := h (pid, grp, path) (List.mem_cons_self _ _)
        refine ⟨by simp, ?_, ?_⟩
        · intro e he
          rcases List.mem_append.mp he with h2 | h2
          · exact hgood.2.1 e h2
          · simp only [List.mem_singleton] at h2
            subst h2
            exact hp.symm
        · exact ⟨ex, List.mem_append.mpr (Or.inr (List.mem_singleton.mpr rfl)), rfl⟩
      · exact h g (List.mem_cons_of_mem _ h1)
    · rw [if_neg hp] at hg
      rcases List.mem_cons.mp hg with h1 | h1
      · subst h1
        exact h (pid, grp, path) (List.mem_cons_self _ _)
      · exact ih (fun g hg => h g (List.mem_cons_of_mem _ hg)) g h1

/-- Every group built by the grouping dict of `send_cancel_exchange` is
well-formed. -/
theorem groupCancel_good (exs : List Exchange) :
    ∀ g ∈ groupCancel exs, GoodGroup g := by
  have key : ∀ (l : List Exchange) (acc : List CancelGroup),
      (∀ g ∈ acc, GoodGroup g) → ∀ g ∈ l.foldl upsertCancelGroup acc, GoodGroup g := by
    intro l
    induction l with
    | nil => intro acc hacc; simpa using hacc
    | cons e rest ih =>
      intro acc hacc
      simp only [List.foldl_cons]
      exact ih _ (upsertCancelGroup_good hacc)
  exact key exs [] (by simp)

/-- Every message produced by the emission loop comes from one of the
groups, with that group's exchanges and path. -/
theorem tellsOfGroups_mem {groups : List CancelGroup}
    {msgs : List (String × ConsumerCanceledExchange)}
    (h : tellsOfGroups groups = .ok msgs) :
    ∀ m ∈ msgs, ∃ g ∈ groups, m.2.exchanges = g.2.1 ∧ m.2.path_node = g.2.2 := by
  induction groups generalizing msgs with
  | nil =>
    simp only [tellsOfGroups, Except.ok.injEq] at h
    subst h
    simp
  | cons g rest ih =>
    simp only [tellsOfGroups] at h
    cases hpath : g.2.2 with
    | nil => rw [hpath] at h; exact absurd h (by simp)
    | cons d p =>
      rw [hpath] at h
      cases hrest : tellsOfGroups rest with
      | error s => rw [hrest] at h; exact absurd h (by simp)
      | ok ms =>
        rw [hrest] at h
        simp only [Except.ok.injEq] at h
        subst h
        intro m hm
        rcases List.mem_cons.mp hm with h1 | h1
        · subst h1
          exact ⟨g, List.mem_cons_self _ _, rfl, hpath.symm⟩
        · obtain ⟨g2, hg2, he, hp⟩ := ih hrest m h1
          exact ⟨g2, List.mem_cons_of_mem _ hg2, he, hp⟩

/-! ## Claim theorems -/

/-- C1 (code bug): the loop-prevention filter of `send_proposal`
(`broker.py:85`, `if b not in prop.path_node`) compares the `Border` object
itself — not `b.dest` — with the string entries of the prospective
`path_node`, so it never suppresses anything: here node `A` tells a
proposal to its border `B` although `"B"` already appears in the
prospective `path_node = ["A", "B"]`, contradicting the claimed
suppression. -/
theorem C1_loop_filter_inoperative :
    Broker.send_proposal brokerA [Production.mk 7 5 3 "local" none] ["B"]
      = [("B", Proposal.mk 7 5 3 ["A", "B"])]
    ∧ "B" ∈ (Proposal.mk 7 5 3 ["A", "B"]).path_node := by
  decide

/-- C3 (counterexample): `delete_all` is NOT total on missing entries: the
ledger stores production `1` with exchange id `1` only, and deleting an
exchange of production `1` with the absent id `2` raises `KeyError`
(`broker.py:28` guards only the production key, not the exchange key). -/
theorem C3_counterexample :
    (LedgerExchange.mk [(1, [(1, Exchange.mk 1 1 2 [])])]).delete_all
      [Exchange.mk 2 1 5 []] = .error "KeyError" := by
  rfl

/-- C3 (amended): a successful `delete_all` removes exactly the listed
`(production_id, exchange_id)` pairs (entries whose production id is absent
are silently skipped, which keeps the run successful); but an exchange
whose production id is present while its exchange id is absent raises
`KeyError`, so the original "never fails" is wrong (see
`C3_counterexample`). -/
theorem C3_delete_all_removes_listed {l l' : LedgerExchange}
    {exs : List Exchange} (hnd : l.InnerKeysNodup)
    (h : l.delete_all exs = .ok l') (pid eid : Nat) :
    l'.lookup pid eid
      = if (pid, eid) ∈ exs.map (fun e => (e.production_id, e.id)) then none
        else l.lookup pid eid :=
  delete_all_lookup hnd h pid eid

theorem C3_delete_all_removes_listed_witness :
    (LedgerExchange.mk [(1, [(2, Exchange.mk 2 1 3 [])])]).lookup 1 1 = none := by
  have h := @C3_delete_all_removes_listed
    (LedgerExchange.mk [(1, [(1, Exchange.mk 1 1 2 []), (2, Exchange.mk 2 1 3 [])])])
    (LedgerExchange.mk [(1, [(2, Exchange.mk 2 1 3 [])])])
    [Exchange.mk 1 1 2 []]
    (by unfold LedgerExchange.InnerKeysNodup; decide) (by rfl) 1 1
  rw [h]
  decide

/-- C5: for `quantity ≥ 0` and `min_exchange > 0`, `generate_exchanges`
returns `⌊quantity / min_exchange⌋` exchanges of quantity `min_exchange`
plus one remainder exchange of quantity `quantity mod min_exchange` exactly
when that remainder is positive; the returned quantities sum to `quantity`,
every exchange carries the given production id and path, and the ids are
the consecutive fresh values `counter, counter+1, ...` (hence pairwise
distinct), the counter advancing past them. -/
theorem C5_generate_exchanges_split (min_exchange quantity : Int)
    (production_id : Nat) (path_node : List String) (counter : Nat)
    (hq : 0 ≤ quantity) (hm : 0 < min_exchange) :
    ((Broker.generate_exchanges min_exchange production_id quantity
        path_node counter).1.map (fun e => e.quantity))
      = List.replicate (quantity / min_exchange).toNat min_exchange
        ++ (if 0 < quantity % min_exchange then [quantity % min_exchange] else [])
    ∧ ((Broker.generate_exchanges min_exchange production_id quantity
        path_node counter).1.map (fun e => e.quantity)).sum = quantity
    ∧ (∀ e ∈ (Broker.generate_exchanges min_exchange production_id quantity
        path_node counter).1,
        e.production_id = production_id ∧ e.path_node = path_node)
    ∧ ((Broker.generate_exchanges min_exchange production_id quantity
        path_node counter).1.map (fun e => e.id))
      = List.range' counter
          (Broker.generate_exchanges min_exchange production_id quantity
            path_node counter).1.length
    ∧ ((Broker.generate_exchanges min_exchange production_id quantity
        path_node counter).1.map (fun e => e.id)).Nodup
    ∧ (Broker.generate_exchanges min_exchange production_id quantity
        path_node counter).2
      = counter + (Broker.generate_exchanges min_exchange production_id quantity
          path_node counter).1.length := by
  refine ⟨generate_exchanges_quantities hq hm production_id path_node counter,
    generate_exchanges_sum hq hm production_id path_node counter,
    generate_exchanges_fields min_exchange production_id quantity path_node counter,
    generate_exchanges_ids min_exchange production_id quantity path_node counter,
    ?_,
    generate_exchanges_counter min_exchange production_id quantity path_node counter⟩
  rw [generate_exchanges_ids min_exchange production_id quantity path_node counter]
  exact List.nodup_range' _ _

theorem C5_generate_exchanges_split_witness :
    ((Broker.generate_exchanges 2 7 5 ["A"] 0).1.map (fun e => e.quantity)).sum = 5
    ∧ (Broker.generate_exchanges 2 7 5 ["A"] 0).2
      = 0 + (Broker.generate_exchanges 2 7 5 ["A"] 0).1.length := by
  have h := C5_generate_exchanges_split 2 5 7 ["A"] 0 (by decide) (by decide)
  exact ⟨h.2.1, h.2.2.2.2.2⟩

/-- C6: the `return_path_node` stamped into the `ProposalOffer` built by
`make_offer` (`broker.py:145`, `proposal.path_node[-2::-1] + [self.name]`)
equals the reverse of `path_node` with its last element (the producer hop)
removed, with the node's own name appended; for a one-element `path_node`
it is `[self.name]`. -/
theorem C6_build_offer_return_path (b : Broker) (proposal : Proposal)
    (prod_asked : Production) :
    (Broker.build_offer b proposal prod_asked).return_path_node
      = proposal.path_node.dropLast.reverse ++ [b.name]
    ∧ (proposal.path_node.length = 1 →
      (Broker.build_offer b proposal prod_asked).return_path_node = [b.name]) := by
  have h1 : sliceSecondLastDown proposal.path_node
      = proposal.path_node.dropLast.reverse := by
    unfold sliceSecondLastDown
    rw [← List.dropLast_eq_take]
  constructor
  · show sliceSecondLastDown proposal.path_node ++ [b.name] = _
    rw [h1]
  · intro hlen
    show sliceSecondLastDown proposal.path_node ++ [b.name] = [b.name]
    rw [h1]
    have h2 : proposal.path_node.dropLast = [] := by
      rw [List.dropLast_eq_take, hlen]
      simp
    rw [h2]
    rfl

theorem C6_build_offer_return_path_witness :
    (Broker.build_offer brokerA (Proposal.mk 7 5 3 ["P"])
      (Production.mk 7 5 2 "local" none)).return_path_node = ["A"] :=
  (C6_build_offer_return_path brokerA (Proposal.mk 7 5 3 ["P"])
    (Production.mk 7 5 2 "local" none)).2 (by decide)

/-- C8: `LedgerExchange.add` fails with the `ValueError` message when the
`(production_id, exchange_id)` pair is already stored (the stored entry is
untouched, the operation returning no new ledger), and succeeds when the
pair is absent, recording the exchange under it. -/
theorem C8_add_duplicate_fails (l : LedgerExchange) (ex : Exchange) :
    (∀ e0, l.lookup ex.production_id ex.id = some e0 →
      l.add ex = .error "Exchange already stored in ledger")
    ∧ (l.lookup ex.production_id ex.id = none →
      ∃ l2, l.add ex = .ok l2 ∧ l2.lookup ex.production_id ex.id = some ex) := by
  constructor
  · intro e0 h0
    show (addLedger l.ledger ex).map LedgerExchange.mk = _
    rw [addLedger_lookup_present h0]
    rfl
  · intro h0
    obtain ⟨L2, hL, hlk⟩ := addLedger_lookup_absent h0
    refine ⟨LedgerExchange.mk L2, ?_, hlk⟩
    show (addLedger l.ledger ex).map LedgerExchange.mk = _
    rw [hL]
    rfl

theorem C8_add_duplicate_fails_witness :
    ((LedgerExchange.mk [(1, [(1, Exchange.mk 1 1 2 [])])]).add
      (Exchange.mk 1 1 9 []) = .error "Exchange already stored in ledger")
    ∧ ∃ l2, (LedgerExchange.mk [(1, [(1, Exchange.mk 1 1 2 [])])]).add
        (Exchange.mk 2 1 9 []) = .ok l2
      ∧ l2.lookup 1 2 = some (Exchange.mk 2 1 9 []) :=
  ⟨(C8_add_duplicate_fails (LedgerExchange.mk [(1, [(1, Exchange.mk 1 1 2 [])])])
      (Exchange.mk 1 1 9 [])).1 (Exchange.mk 1 1 2 []) (by decide),
   (C8_add_duplicate_fails (LedgerExchange.mk [(1, [(1, Exchange.mk 1 1 2 [])])])
      (Exchange.mk 2 1 9 [])).2 (by decide)⟩

/-- C9: `send_remain_proposal` spreads a leftover proposal exactly when
`asked_quantity < proposal.quantity` and `asked_quantity = given_quantity`:
then each border is told a proposal for `proposal.quantity - asked_quantity`
at the production's original cost (plus, as for every emission, the border
cost) along the existing `path_node` grown by the node's own name; in every
other case — in particular when the producer delivered less than asked —
nothing is sent. -/
theorem C9_send_remain_proposal_iff (b : Broker) (proposal : Proposal)
    (asked_quantity given_quantity : Int) :
    b.send_remain_proposal proposal asked_quantity given_quantity
      = if asked_quantity < proposal.quantity ∧ asked_quantity = given_quantity then
          b.borders.flatMap (fun bd =>
            [(bd.dest, Proposal.mk proposal.production_id
              (proposal.cost + bd.cost) (proposal.quantity - asked_quantity)
              (b.name :: proposal.path_node))])
        else [] := by
  unfold Broker.send_remain_proposal
  by_cases hc : asked_quantity < proposal.quantity ∧ asked_quantity = given_quantity
  · rw [if_pos hc, if_pos hc, send_proposal_eq]
    rfl
  · rw [if_neg hc, if_neg hc]

/-- C10: every `ConsumerCanceledExchange` constructed by
`send_cancel_exchange` groups a nonempty list of exchanges sharing one
production id, and its `path_node` is the `path_node` of one of the grouped
exchanges — so `receive_cancel_exchange` may safely index `exchanges[0]`
on every cancellation this broker emits. -/
theorem C10_cancellations_wf {exs : List Exchange}
    {msgs : List (String × ConsumerCanceledExchange)}
    (h : send_cancel_exchange exs = .ok msgs) :
    ∀ m ∈ msgs, m.2.exchanges ≠ []
      ∧ (∀ e1 ∈ m.2.exchanges, ∀ e2 ∈ m.2.exchanges,
          e1.production_id = e2.production_id)
      ∧ (∃ e ∈ m.2.exchanges, m.2.path_node = e.path_node) := by
  intro m hm
  obtain ⟨g, hg, he, hp⟩ := tellsOfGroups_mem h m hm
  have hgood := groupCancel_good exs g hg
  refine ⟨by rw [he]; exact hgood.1, ?_, ?_⟩
  · intro e1 h1 e2 h2
    rw [he] at h1 h2
    rw [hgood.2.1 e1 h1, hgood.2.1 e2 h2]
  · obtain ⟨e, hemem, hpe⟩ := hgood.2.2
    refine ⟨e, by rw [he]; exact hemem, by rw [hp, hpe]⟩

theorem C10_cancellations_wf_witness :
    ([Exchange.mk 1 5 2 ["B"]] ≠ ([] : List Exchange))
    ∧ (∀ e1 ∈ [Exchange.mk 1 5 2 ["B"]], ∀ e2 ∈ [Exchange.mk 1 5 2 ["B"]],
        e1.production_id = e2.production_id)
    ∧ (∃ e ∈ [Exchange.mk 1 5 2 ["B"]], ["B"] = e.path_node) :=
  @C10_cancellations_wf [Exchange.mk 1 5 2 ["B"]]
    [("B", ConsumerCanceledExchange.mk [Exchange.mk 1 5 2 ["B"]] ["B"])]
    (by rfl)
    ("B", ConsumerCanceledExchange.mk [Exchange.mk 1 5 2 ["B"]] ["B"])
    (by decide)

/-- C7: when the re-solve with the tentative import production does not
strictly lower the cost, `receive_proposal` leaves the whole broker — in
particular its `NodeState` and its ledger — unchanged and only re-emits the
proposal to its borders with `path_node` grown by the node's own name (and
the border cost added, as on every emission). -/
theorem C7_no_improvement_frame (opt : Optimizer) (ask : AskOracle)
    (b : Broker) (proposal : Proposal)
    (h : ¬ (opt b.consumptions (importProduction proposal
        :: (b.state.productions_used ++ b.state.productions_free))).cost
          < b.state.cost) :
    Broker.receive_proposal opt ask b proposal
      = .ok (b, b.borders.flatMap (fun bd =>
          [SentMsg.prop bd.dest (Proposal.mk proposal.production_id
            (proposal.cost + bd.cost) proposal.quantity
            (b.name :: proposal.path_node))])) := by
  unfold Broker.receive_proposal
  dsimp only
  rw [if_neg h, send_proposal_eq, List.map_flatMap]
  rfl

theorem C7_no_improvement_frame_witness :
    Broker.receive_proposal optExpensive askNone brokerA (Proposal.mk 7 5 4 ["X"])
      = .ok (brokerA, [SentMsg.prop "B" (Proposal.mk 7 5 4 ["A", "X"])]) := by
  have h := C7_no_improvement_frame optExpensive askNone brokerA
    (Proposal.mk 7 5 4 ["X"]) (by decide)
  rw [h]
  rfl

/-- C2 (counterexample): at the producing hop, `brokerB` computes the
negative `quantity_exchange = min(5, 0 - 1) = -1`, yet the handler does NOT
return an empty list: `generate_exchanges(-1)` (with `min_exchange = 2`)
emits one exchange of negative quantity `-1`, which is returned to the
consumer (the ledger is indeed left unchanged). -/
theorem C2_counterexample :
    servedQuantity brokerB offerAtProducer (Production.mk 7 5 0 "local" none) < 0
    ∧ Broker.receive_proposal_offer askNone brokerB offerAtProducer
        = .ok ({ brokerB with counter := 6 }, [Exchange.mk 5 7 (-1) ["A"]]) := by
  constructor
  · decide
  · rfl

/-- C2 (amended): at the producing hop (`path_node` of length one, matching
free production found), the handler serves
`quantity_exchange = min(offer.quantity, quantity_free - quantity_used)`:
when `quantity_exchange ≤ 0` nothing is recorded in the ledger and the
reply is `generate_exchanges(quantity_exchange)` — empty when
`quantity_exchange = 0`, but possibly one negative-remainder exchange when
it is negative (see `C2_counterexample`); when `quantity_exchange > 0` the
reply quantities sum to `quantity_exchange` and the ledger sum for the
production grows by exactly `quantity_exchange`. -/
theorem C2_offer_serves_min (ask : AskOracle) (b : Broker)
    (po : ProposalOffer) (prodFree : Production)
    (hpath : po.path_node.length = 1)
    (hfind : Broker.find_production b.state.productions_free po.production_id
      = some prodFree)
    (hmin : 0 < b.min_exchange) :
    (servedQuantity b po prodFree ≤ 0 →
      Broker.receive_proposal_offer ask b po
        = .ok ({ b with counter := (Broker.generate_exchanges b.min_exchange
              po.production_id (servedQuantity b po prodFree)
              po.return_path_node b.counter).2 },
            (Broker.generate_exchanges b.min_exchange po.production_id
              (servedQuantity b po prodFree) po.return_path_node b.counter).1))
    ∧ (servedQuantity b po prodFree = 0 →
      (Broker.generate_exchanges b.min_exchange po.production_id
        (servedQuantity b po prodFree) po.return_path_node b.counter).1 = [])
    ∧ (0 < servedQuantity b po prodFree →
      ∀ b2 reply, Broker.receive_proposal_offer ask b po = .ok (b2, reply) →
        (reply.map (fun e => e.quantity)).sum = servedQuantity b po prodFree
        ∧ b2.ledger_exchanges.sum_production po.production_id
          = b.ledger_exchanges.sum_production po.production_id
            + servedQuantity b po prodFree) := by
  obtain ⟨x, hx⟩ : ∃ x, po.path_node = [x] := by
    cases hpn : po.path_node with
    | nil => rw [hpn] at hpath; simp at hpath
    | cons a t =>
      cases t with
      | nil => exact ⟨a, rfl⟩
      | cons c t2 => rw [hpn] at hpath; simp at hpath
  have hserved : servedQuantity b po prodFree
      = min po.quantity
          (prodFree.quantity - b.ledger_exchanges.sum_production po.production_id) :=
    rfl
  refine ⟨?_, ?_, ?_⟩
  · intro hle
    unfold Broker.receive_proposal_offer
    rw [hx]
    dsimp only
    rw [hfind]
    dsimp only
    rw [hserved] at hle
    rw [if_neg (not_lt.mpr hle)]
    rfl
  · intro h0
    rw [h0]
    simp [Broker.generate_exchanges, Int.zero_tdiv]
  · intro hpos b2 reply hok
    unfold Broker.receive_proposal_offer at hok
    rw [hx] at hok
    dsimp only at hok
    rw [hfind] at hok
    dsimp only at hok
    rw [hserved] at hpos
    rw [if_pos hpos] at hok
    set qe := min po.quantity
      (prodFree.quantity - b.ledger_exchanges.sum_production po.production_id)
      with hqe
    cases hadd : b.ledger_exchanges.add_all
        (Broker.generate_exchanges b.min_exchange po.production_id qe
          po.return_path_node b.counter).1 with
    | error s => rw [hadd] at hok; exact absurd hok (by simp)
    | ok l2 =>
      rw [hadd] at hok
      simp only [Except.ok.injEq, Prod.mk.injEq] at hok
      have hqnn : 0 ≤ qe := le_of_lt hpos
      have hsum := generate_exchanges_sum hqnn hmin po.production_id
        po.return_path_node b.counter
      have hfields := generate_exchanges_fields b.min_exchange po.production_id
        qe po.return_path_node b.counter
      constructor
      · rw [← hok.2, ← hserved]
        exact hsum
      · rw [← hok.1]
        show l2.sum_production po.production_id = _
        rw [add_all_sum hadd po.production_id]
        have hfil : (Broker.generate_exchanges b.min_exchange po.production_id qe
              po.return_path_node b.counter).1.filter
                (fun e => e.production_id = po.production_id)
            = (Broker.generate_exchanges b.min_exchange po.production_id qe
                po.return_path_node b.counter).1 := by
          apply List.filter_eq_self.mpr
          intro e he
          simp [(hfields e he).1]
        rw [hfil, hsum, ← hserved]

theorem C2_offer_serves_min_witness :
    ((replyC.map (fun e => e.quantity)).sum = servedQuantity brokerC offerC freeC)
    ∧ (brokerC2.ledger_exchanges.sum_production 7
      = brokerC.ledger_exchanges.sum_production 7
        + servedQuantity brokerC offerC freeC) :=
  (C2_offer_serves_min askNone brokerC offerC freeC (by decide) (by rfl)
    (by decide)).2.2 (by decide) brokerC2 replyC (by rfl)

/-- C4: the spec §8 ledger bound — for every local production `p`,
`ledger.sum_production(p.id) ≤ p.quantity` — is preserved by every broker
handler that completes normally (together with the positivity of all
stored quantities, which the preservation argument needs), assuming
`min_exchange` is positive and the external solver never reports more free
quantity on a local production than that production owns
(`Broker.StateFreeBound`). -/
theorem C4_ledger_bound_preserved (opt : Optimizer) (ask : AskOracle)
    (b : Broker) (m : Msg) (b2 : Broker) (sent : List SentMsg) (r : Reply)
    (hmin : 0 < b.min_exchange)
    (hfree : Broker.StateFreeBound b)
    (hpos : b.ledger_exchanges.PosQuantities)
    (hbound : Broker.LedgerBound b)
    (h : Dispatcher.on_receive opt ask b m = .ok (b2, sent, r)) :
    Broker.LedgerBound b2 ∧ b2.ledger_exchanges.PosQuantities := by
  cases m with
  | start =>
    simp only [Dispatcher.on_receive, Except.ok.injEq, Prod.mk.injEq] at h
    rw [← h.1]
    exact ⟨hbound, hpos⟩
  | snapshot =>
    simp only [Dispatcher.on_receive, Except.ok.injEq, Prod.mk.injEq] at h
    rw [← h.1]
    exact ⟨hbound, hpos⟩
  | next =>
    simp only [Dispatcher.on_receive, Except.ok.injEq, Prod.mk.injEq] at h
    rw [← h.1]
    exact ⟨hbound, hpos⟩
  | proposal p =>
    simp only [Dispatcher.on_receive] at h
    cases hrp : Broker.receive_proposal opt ask b p with
    | error s => rw [hrp] at h; exact absurd h (by simp)
    | ok res =>
      obtain ⟨bb, ss⟩ := res
      rw [hrp] at h
      simp only [Except.ok.injEq, Prod.mk.injEq] at h
      obtain ⟨hledger, hraw⟩ := receive_proposal_frame hrp
      rw [← h.1]
      constructor
      · intro q hq
        rw [hraw] at hq
        rw [hledger]
        exact hbound q hq
      · rw [hledger]
        exact hpos
  | offer p =>
    simp only [Dispatcher.on_receive] at h
    cases hro : Broker.receive_proposal_offer ask b p with
    | error s => rw [hro] at h; exact absurd h (by simp)
    | ok res =>
      obtain ⟨bb, ss⟩ := res
      rw [hro] at h
      simp only [Except.ok.injEq, Prod.mk.injEq] at h
      obtain ⟨hraw, hb, hp⟩ := receive_proposal_offer_inv hmin hfree hpos hbound hro
      rw [← h.1]
      exact ⟨hb, hp⟩
  | cancel c =>
    simp only [Dispatcher.on_receive] at h
    cases hrc : Broker.receive_cancel_exchange b c with
    | error s => rw [hrc] at h; exact absurd h (by simp)
    | ok res =>
      obtain ⟨bb, ss⟩ := res
      rw [hrc] at h
      simp only [Except.ok.injEq, Prod.mk.injEq] at h
      obtain ⟨hraw, hb, hp⟩ := receive_cancel_exchange_inv hpos hbound hrc
      rw [← h.1]
      exact ⟨hb, hp⟩

theorem C4_ledger_bound_preserved_witness :
    Broker.LedgerBound brokerA ∧ brokerA.ledger_exchanges.PosQuantities :=
  C4_ledger_bound_preserved optExpensive askNone brokerA Msg.start brokerA [] Reply.unit
    (by decide)
    (by unfold Broker.StateFreeBound; decide)
    (by unfold LedgerExchange.PosQuantities; decide)
    (by unfold Broker.LedgerBound; decide)
    (by rfl)

end Hadar
